import Mathlib

/-!
Verification of the book-generator core of the Gia-Pha-Dien-Tu repository
(`src/frontend/src/lib/book-generator.ts`).

The TypeScript module transforms a genealogy record set (people and family
unions) into a chapterized book structure: a BFS generation resolver followed
by a book synthesizer.  This file is a shallow embedding of that module:
every definition mirrors the corresponding TypeScript function, including
JavaScript truthiness on numbers (`0` is falsy) and on optional strings
(`""` and `undefined` are falsy), `Map` construction semantics (later
duplicate keys overwrite earlier ones), and the stable sorts.

The wall-clock export date (`new Date().toLocaleDateString(...)`) and the
locale collator (`String.prototype.localeCompare` with locale `'vi'`) are
external library effects; they enter the embedding as explicit parameters
(`today` and `cmp`), which makes the clock dependency visible.
-/

namespace FamilyBook

/-- Person record, mirroring the `TreeNode` interface fields that
`book-generator.ts` reads (`handle`, `displayName`, `gender`, `birthYear`,
`deathYear`, `isLiving`, `isPatrilineal`, `families`, `parentFamilies`) plus
the database generation hint accessed as `(p as any).generation`.  Field
shapes follow the spec's Person data model. -/
structure TreeNode where
  handle : String
  displayName : String
  gender : Int
  birthYear : Option Int
  deathYear : Option Int
  isLiving : Bool
  isPatrilineal : Bool
  families : List String
  parentFamilies : List String
  generation : Option Int
deriving Repr, DecidableEq, Inhabited

/-- Family-union record, mirroring the `TreeFamily` interface fields read by
`book-generator.ts`: `handle`, optional `fatherHandle`, optional
`motherHandle`, ordered `children`. -/
structure TreeFamily where
  handle : String
  fatherHandle : Option String
  motherHandle : Option String
  children : List String
deriving Repr, DecidableEq, Inhabited

/-- JavaScript truthiness of an optional string: `undefined` and `""` are
falsy.  Returns the string when truthy. -/
def strTruthy : Option String → Option String
  | some s => if s = "" then none else some s
  | none => none

/-- JavaScript truthiness of an optional number: `undefined` and `0` are
falsy.  Returns the number when truthy. -/
def numTruthy : Option Int → Option Int
  | some n => if n = 0 then none else some n
  | none => none

/-- Lookup in the generation map, modelled as an association list where new
entries are consed at the front (each handle is inserted at most once, so
the lookup order is immaterial). -/
def lookupGen (h : String) : List (String × Int) → Option Int
  | [] => none
  | e :: es => if e.1 = h then some e.2 else lookupGen h es

/-- `new Map(people.map(p => [p.handle, p])).get(h)`: later duplicate keys
overwrite earlier ones, so the fold keeps the last match. -/
def personMapGet (people : List TreeNode) (h : String) : Option TreeNode :=
  people.foldl (fun acc p => if p.handle = h then some p else acc) none

/-- `new Map(families.map(f => [f.handle, f])).get(h)` (last duplicate wins). -/
def familyMapGet (families : List TreeFamily) (h : String) : Option TreeFamily :=
  families.foldl (fun acc f => if f.handle = h then some f else acc) none

/-- The `childOfFamily` set: every handle appearing in any union's
`children` list. -/
def childOfFamily (families : List TreeFamily) : List String :=
  families.flatMap (fun f => f.children)

/-- Valid roots: patrilineal people who are not a child of any union
(line 94 of the source). -/
def rootsOf (people : List TreeNode) (families : List TreeFamily) : List TreeNode :=
  people.filter (fun p => p.isPatrilineal && !((childOfFamily families).contains p.handle))

/-- A single conditional parent push (lines 113-118): the handle at the
same generation, when truthy and not yet assigned. -/
def condPush (gens : List (String × Int)) (g : Int) (oh : Option String) :
    List (String × Int) :=
  match strTruthy oh with
  | some h => if (lookupGen h gens).isNone then [(h, g)] else []
  | none => []

/-- The queue entries pushed while scanning one union during BFS
(lines 112-125): the father and mother at the same generation when truthy
and unassigned, then every unassigned child at the next generation. -/
def famPushes (gens : List (String × Int)) (g : Int) (fam : TreeFamily) :
    List (String × Int) :=
  condPush gens g fam.fatherHandle ++
  condPush gens g fam.motherHandle ++
  fam.children.filterMap (fun ch =>
    if (lookupGen ch gens).isNone then some (ch, g + 1) else none)

/-- The queue entries contributed by one union identifier: the union's
pushes when the identifier resolves, nothing otherwise (line 110). -/
def famIdPushes (families : List TreeFamily) (gens : List (String × Int))
    (g : Int) (famId : String) : List (String × Int) :=
  match familyMapGet families famId with
  | some fam => famPushes gens g fam
  | none => []

/-- The queue entries pushed for one dequeued person (lines 107-126): scan
the person's `families` list, skipping unions missing from the family map. -/
def personPushes (families : List TreeFamily) (gens : List (String × Int))
    (g : Int) (pers : TreeNode) : List (String × Int) :=
  pers.families.flatMap (famIdPushes families gens g)

/-- One BFS worklist loop (lines 99-127), with explicit fuel.  Each step
dequeues a pair; an already-assigned handle is skipped (first assignment
wins), otherwise the handle is assigned and, when the person record exists,
its unions' pushes are appended to the queue.  `generateBookData` runs this
with fuel `bfsMeasure`, which is proved sufficient below. -/
def bfsAux (people : List TreeNode) (families : List TreeFamily) :
    Nat → List (String × Int) → List (String × Int) → List (String × Int)
  | 0, _, gens => gens
  | _ + 1, [], gens => gens
  | fuel + 1, (h, g) :: rest, gens =>
    if (lookupGen h gens).isSome then
      bfsAux people families fuel rest gens
    else
      match personMapGet people h with
      | none => bfsAux people families fuel rest ((h, g) :: gens)
      | some pers =>
        bfsAux people families fuel
          (rest ++ personPushes families ((h, g) :: gens) g pers)
          ((h, g) :: gens)

/-- Upper bound on the queue entries one union identifier can contribute:
two parent slots plus its children. -/
def famIdBound (families : List TreeFamily) (famId : String) : Nat :=
  match familyMapGet families famId with
  | some fam => 2 + fam.children.length
  | none => 2

/-- Upper bound on the number of queue entries one person's processing can
push: two parent slots plus the children of each union in its `families`
list. -/
def pushBound (families : List TreeFamily) (p : TreeNode) : Nat :=
  (p.families.map (famIdBound families)).sum

/-- Termination measure for the BFS: total push potential of the
still-unassigned people plus the current queue length.  Strictly decreases
at every step. -/
def bfsMeasure (people : List TreeNode) (families : List TreeFamily)
    (queue gens : List (String × Int)) : Nat :=
  ((people.filter (fun p => (lookupGen p.handle gens).isNone)).map
    (pushBound families)).sum + queue.length

/-- Initial BFS queue: every valid root seeded at generation 0 (line 97). -/
def initialQueue (people : List TreeNode) (families : List TreeFamily) :
    List (String × Int) :=
  (rootsOf people families).map (fun r => (r.handle, 0))

/-- The full BFS run of the resolver, from the seeded queue and empty map. -/
def bfsRun (people : List TreeNode) (families : List TreeFamily) :
    List (String × Int) :=
  bfsAux people families
    (bfsMeasure people families (initialQueue people families) [])
    (initialQueue people families) []

/-- Fallback generation for a person never reached by the BFS (line 134):
`(p as any).generation ? generation - 1 : 0`.  JavaScript truthiness makes a
hint of `0` fall through to the default `0`. -/
def fallbackGen (p : TreeNode) : Int :=
  match numTruthy p.generation with
  | some g => g - 1
  | none => 0

/-- One iteration of the fallback pass (lines 130-137): a person still
missing from the map is assigned `fallbackGen`. -/
def fallbackStep (gens : List (String × Int)) (p : TreeNode) :
    List (String × Int) :=
  if (lookupGen p.handle gens).isSome then gens
  else (p.handle, fallbackGen p) :: gens

/-- Step 1 of `generateBookData` (lines 84-137): BFS assignment followed by
the fallback pass over the people list. -/
def resolveGenerations (people : List TreeNode) (families : List TreeFamily) :
    List (String × Int) :=
  people.foldl fallbackStep (bfsRun people families)

/-- One entry of a `BookPerson`'s children list (name, formatted lifespan,
optional out-of-lineage note). -/
structure ChildEntry where
  name : String
  years : String
  note : Option String
deriving Repr, DecidableEq, Inhabited

/-- Derived per-person book entry, mirroring the `BookPerson` interface. -/
structure BookPerson where
  handle : String
  name : String
  gender : Int
  birthYear : Option Int
  deathYear : Option Int
  isLiving : Bool
  isPatrilineal : Bool
  generation : Int
  fatherName : Option String
  motherName : Option String
  spouseName : Option String
  spouseYears : Option String
  spouseNote : Option String
  children : List ChildEntry
  childIndex : Option Nat
deriving Repr, DecidableEq, Inhabited

/-- One generation chapter, mirroring the `BookChapter` interface. -/
structure BookChapter where
  generation : Int
  title : String
  romanNum : String
  members : List BookPerson
deriving Repr, DecidableEq, Inhabited

/-- One name-index entry. -/
structure NameEntry where
  name : String
  generation : Int
  isPatrilineal : Bool
deriving Repr, DecidableEq, Inhabited

/-- Top-level output, mirroring the `BookData` interface. -/
structure BookData where
  familyName : String
  exportDate : String
  totalGenerations : Int
  totalMembers : Nat
  totalPatrilineal : Nat
  chapters : List BookChapter
  nameIndex : List NameEntry
deriving Repr, DecidableEq, Inhabited

/-- The `ROMAN` numeral table (lines 49-50). -/
def ROMAN : List String :=
  ["I", "II", "III", "IV", "V", "VI", "VII", "VIII", "IX", "X",
   "XI", "XII", "XIII", "XIV", "XV", "XVI", "XVII", "XVIII", "XIX", "XX"]

/-- `romanNumeral` (line 56): `ROMAN[n] || toString (n+1)` — an out-of-range
(or empty, hence falsy) table entry falls back to the numeric label. -/
def romanNumeral (n : Nat) : String :=
  match ROMAN.get? n with
  | some s => if s = "" then toString (n + 1) else s
  | none => toString (n + 1)

/-- `GEN_NAMES[gen] || ''` (lines 52-54): the honorific for generation 0. -/
def genName (gen : Nat) : String :=
  if gen = 0 then "THỦY TỔ" else ""

/-- `genTitle` (lines 60-64). -/
def genTitle (gen : Nat) : String :=
  let roman := romanNumeral gen
  let name := genName gen
  if name ≠ "" then "ĐỜI THỨ " ++ roman ++ " — " ++ name
  else "ĐỜI THỨ " ++ roman

/-- `formatYears` (lines 66-71), with JavaScript number truthiness: a year
equal to `0` is falsy, so it behaves like an absent year. -/
def formatYears (birth death : Option Int) (isLiving : Bool) : String :=
  match numTruthy birth with
  | none => "—"
  | some b =>
    match numTruthy death with
    | some d => toString b ++ " – " ++ toString d
    | none => if isLiving then toString b ++ " – nay" else toString b

/-- One iteration of the parent-name scan (lines 151-163): a resolvable
father/mother display name overwrites the accumulator's component. -/
def parentStep (people : List TreeNode) (families : List TreeFamily)
    (acc : Option String × Option String) (pfId : String) :
    Option String × Option String :=
  match familyMapGet families pfId with
  | none => acc
  | some pf =>
    let fatherN :=
      match strTruthy pf.fatherHandle with
      | some fh =>
        match personMapGet people fh with
        | some father => some father.displayName
        | none => acc.1
      | none => acc.1
    let motherN :=
      match strTruthy pf.motherHandle with
      | some mh =>
        match personMapGet people mh with
        | some mother => some mother.displayName
        | none => acc.2
      | none => acc.2
    (fatherN, motherN)

/-- Parent-name scan (lines 149-163): every union in `parentFamilies` is
visited in order and each resolvable father/mother display name overwrites
the previous one. -/
def parentNamesOf (people : List TreeNode) (families : List TreeFamily)
    (p : TreeNode) : Option String × Option String :=
  p.parentFamilies.foldl (parentStep people families) (none, none)

/-- Accumulator of the spouse/children scan (lines 165-198). -/
structure SpouseInfo where
  spouseName : Option String
  spouseYears : Option String
  spouseNote : Option String
  children : List ChildEntry
deriving Repr, DecidableEq, Inhabited

/-- The children entries contributed by one union (lines 186-197): every
resolvable child, in list order, with its out-of-lineage note. -/
def unionChildEntries (people : List TreeNode) (fam : TreeFamily) :
    List ChildEntry :=
  fam.children.filterMap (fun chH =>
    match personMapGet people chH with
    | some child =>
      some { name := child.displayName
             years := formatYears child.birthYear child.deathYear child.isLiving
             note := if !child.isPatrilineal then some "Ngoại tộc" else none }
    | none => none)

/-- Processing of one union in the spouse/children scan (lines 171-198):
the other parent slot is the spouse; a resolvable spouse overwrites the name
and lifespan, and sets the out-of-lineage note when non-patrilineal (the
note is never cleared); every resolvable child is appended. -/
def spouseStep (people : List TreeNode) (families : List TreeFamily)
    (p : TreeNode) (acc : SpouseInfo) (famId : String) : SpouseInfo :=
  match familyMapGet families famId with
  | none => acc
  | some fam =>
    let spouseHandle : Option String :=
      if fam.fatherHandle = some p.handle then fam.motherHandle
      else fam.fatherHandle
    let acc' :=
      match strTruthy spouseHandle with
      | some sh =>
        match personMapGet people sh with
        | some spouse =>
          { acc with
            spouseName := some spouse.displayName
            spouseYears :=
              some (formatYears spouse.birthYear spouse.deathYear spouse.isLiving)
            spouseNote :=
              if !spouse.isPatrilineal then some "Ngoại tộc" else acc.spouseNote }
        | none => acc
      | none => acc
    { acc' with children := acc'.children ++ unionChildEntries people fam }

/-- Spouse and children of a person, folded over its `families` list. -/
def spouseChildrenOf (people : List TreeNode) (families : List TreeFamily)
    (p : TreeNode) : SpouseInfo :=
  p.families.foldl (spouseStep people families p)
    ⟨none, none, none, []⟩

/-- Child index (lines 200-208): 1-based position of the person in the
children list of the FIRST entry of `parentFamilies`, when resolvable. -/
def childIndexOf (families : List TreeFamily) (p : TreeNode) : Option Nat :=
  match p.parentFamilies with
  | [] => none
  | pf0 :: _ =>
    match familyMapGet families pf0 with
    | none => none
    | some pf =>
      match pf.children.indexOf? p.handle with
      | some i => some (i + 1)
      | none => none

/-- Build one `BookPerson` entry (lines 143-226). -/
def buildBookPerson (people : List TreeNode) (families : List TreeFamily)
    (gens : List (String × Int)) (p : TreeNode) : BookPerson :=
  let gen := (lookupGen p.handle gens).getD 0
  let pn := parentNamesOf people families p
  let sc := spouseChildrenOf people families p
  { handle := p.handle
    name := p.displayName
    gender := p.gender
    birthYear := p.birthYear
    deathYear := p.deathYear
    isLiving := p.isLiving
    isPatrilineal := p.isPatrilineal
    generation := gen
    fatherName := pn.1
    motherName := pn.2
    spouseName := sc.spouseName
    spouseYears := sc.spouseYears
    spouseNote := sc.spouseNote
    children := sc.children
    childIndex := childIndexOf families p }

/-- Step 2 (lines 140-227): one `BookPerson` per patrilineal person, in
input order. -/
def buildBookPersons (people : List TreeNode) (families : List TreeFamily)
    (gens : List (String × Int)) : List BookPerson :=
  (people.filter (fun p => p.isPatrilineal)).map
    (buildBookPerson people families gens)

/-- Stable insertion keeping the new element after every kept predecessor:
`le y x` means `y` may stay in front of `x`. -/
def insertTail (le : α → α → Bool) (x : α) : List α → List α
  | [] => [x]
  | y :: ys => if le y x then y :: insertTail le x ys else x :: y :: ys

/-- Stable sort (model of the JavaScript stable `Array.prototype.sort`):
elements are inserted left to right, each after its equals, so any two
stable sorts under the same consistent comparator agree with it. -/
def stableSort (le : α → α → Bool) (l : List α) : List α :=
  l.foldl (fun acc x => insertTail le x acc) []

/-- Chapter sort key (line 236): `childIndex ?? 99`. -/
def bpKey (bp : BookPerson) : Nat :=
  bp.childIndex.getD 99

/-- Stable sort by a natural-number key. -/
def sortByKey (key : α → Nat) (l : List α) : List α :=
  stableSort (fun a b => decide (key a ≤ key b)) l

/-- `Math.max(0, ...generations.values())` (line 230). -/
def maxGenOf (gens : List (String × Int)) : Int :=
  gens.foldl (fun m e => max m e.2) 0

/-- Step 3 (lines 229-246): one chapter per generation `0..maxGen` with a
non-empty member list, members stably sorted by `childIndex ?? 99`. -/
def buildChapters (gens : List (String × Int)) (bookPersons : List BookPerson) :
    List BookChapter :=
  (List.range ((maxGenOf gens).toNat + 1)).filterMap (fun (gNat : Nat) =>
    let g : Int := gNat
    let members := sortByKey bpKey
      (bookPersons.filter (fun bp => bp.generation = g))
    if members.isEmpty then none
    else some { generation := g
                title := genTitle gNat
                romanNum := romanNumeral gNat
                members := members })

/-- Step 4 (lines 248-255): the name index over every person, sorted with
the locale collator `cmp` (modelling `localeCompare(..., 'vi')`). -/
def buildNameIndex (people : List TreeNode) (gens : List (String × Int))
    (cmp : String → String → Int) : List NameEntry :=
  stableSort (fun a b => decide (cmp a.name b.name ≤ 0))
    (people.map (fun p =>
      { name := p.displayName
        generation := (lookupGen p.handle gens).getD 0
        isPatrilineal := p.isPatrilineal }))

/-- `generateBookData` (lines 75-267).  `today` is the locale-formatted
current date (the `new Date().toLocaleDateString` call made explicit) and
`cmp` the locale collator. -/
def generateBookData (people : List TreeNode) (families : List TreeFamily)
    (familyName : String) (today : String) (cmp : String → String → Int) :
    BookData :=
  let gens := resolveGenerations people families
  let bookPersons := buildBookPersons people families gens
  { familyName := familyName
    exportDate := today
    totalGenerations := maxGenOf gens + 1
    totalMembers := people.length
    totalPatrilineal := (people.filter (fun p => p.isPatrilineal)).length
    chapters := buildChapters gens bookPersons
    nameIndex := buildNameIndex people gens cmp }

/-! ## Basic lemmas about the generation map -/

theorem lookupGen_cons (h h' : String) (g : Int) (gens : List (String × Int)) :
    lookupGen h ((h', g) :: gens) = if h' = h then some g else lookupGen h gens :=
  rfl

theorem lookupGen_eq_none_iff (h : String) (gens : List (String × Int)) :
    lookupGen h gens = none ↔ ∀ e ∈ gens, e.1 ≠ h := by
  induction gens with
  | nil => simp [lookupGen]
  | cons e es ih =>
    by_cases he : e.1 = h <;> simp [lookupGen, he, ih]

theorem bfsAux_nil (people : List TreeNode) (families : List TreeFamily)
    (fuel : Nat) (gens : List (String × Int)) :
    bfsAux people families fuel [] gens = gens := by
  cases fuel <;> rfl

/-- Unfolding of one BFS step on a non-empty queue. -/
theorem bfsAux_cons (people : List TreeNode) (families : List TreeFamily)
    (fuel : Nat) (h : String) (g : Int) (rest gens : List (String × Int)) :
    bfsAux people families (fuel + 1) ((h, g) :: rest) gens =
      if (lookupGen h gens).isSome then
        bfsAux people families fuel rest gens
      else
        match personMapGet people h with
        | none => bfsAux people families fuel rest ((h, g) :: gens)
        | some pers =>
          bfsAux people families fuel
            (rest ++ personPushes families ((h, g) :: gens) g pers)
            ((h, g) :: gens) :=
  rfl

/-- A generation assignment is never overwritten by the BFS (first
assignment wins). -/
theorem lookupGen_persist_bfs (people : List TreeNode)
    (families : List TreeFamily) :
    ∀ (fuel : Nat) (q gens : List (String × Int)) (h : String) (v : Int),
      lookupGen h gens = some v →
      lookupGen h (bfsAux people families fuel q gens) = some v := by
  intro fuel
  induction fuel with
  | zero => intro q gens h v hv; simpa [bfsAux] using hv
  | succ f ih =>
    intro q gens h v hv
    cases q with
    | nil => simpa [bfsAux_nil] using hv
    | cons e rest =>
      obtain ⟨h', g'⟩ := e
      rw [bfsAux_cons]
      cases hs : (lookupGen h' gens).isSome with
      | true => simp only [if_true]; exact ih rest gens h v hv
      | false =>
        simp only [Bool.false_eq_true, if_false]
        have hne : h' ≠ h := by
          intro hEq
          rw [hEq, hv] at hs
          simp at hs
        have hv' : lookupGen h ((h', g') :: gens) = some v := by
          rw [lookupGen_cons, if_neg hne]; exact hv
        cases personMapGet people h' with
        | none => exact ih rest _ h v hv'
        | some pers => exact ih _ _ h v hv'

/-- A generation assignment is never overwritten by the fallback pass. -/
theorem lookupGen_persist_fallback :
    ∀ (ps : List TreeNode) (gens : List (String × Int)) (h : String) (v : Int),
      lookupGen h gens = some v →
      lookupGen h (ps.foldl fallbackStep gens) = some v := by
  intro ps
  induction ps with
  | nil => intro gens h v hv; simpa using hv
  | cons p rest ih =>
    intro gens h v hv
    have hstep : lookupGen h (fallbackStep gens p) = some v := by
      unfold fallbackStep
      split
      · exact hv
      · rename_i hnone
        have hne : p.handle ≠ h := by
          intro hEq
          rw [hEq, hv] at hnone
          simp at hnone
        rw [lookupGen_cons, if_neg hne]; exact hv
    simpa using ih (fallbackStep gens p) h v hstep

/-- After the fallback pass, every person of the scanned list has an
assigned generation. -/
theorem fallback_total :
    ∀ (ps : List TreeNode) (gens : List (String × Int)) (p : TreeNode),
      p ∈ ps →
      (lookupGen p.handle (ps.foldl fallbackStep gens)).isSome := by
  intro ps
  induction ps with
  | nil => intro gens p hp; cases hp
  | cons q rest ih =>
    intro gens p hp
    rcases List.mem_cons.mp hp with rfl | hmem
    · have hstep : (lookupGen p.handle (fallbackStep gens p)).isSome := by
        unfold fallbackStep
        split
        · assumption
        · rw [lookupGen_cons, if_pos rfl]; rfl
      obtain ⟨v, hv⟩ := Option.isSome_iff_exists.mp hstep
      have := lookupGen_persist_fallback rest (fallbackStep gens p) p.handle v hv
      simp [this]
    · simpa using ih (fallbackStep gens q) p hmem

/-! ## No-duplicate-keys invariant -/

/-- The generation map never holds two entries for the same handle. -/
def NodupKeys (gens : List (String × Int)) : Prop :=
  gens.Pairwise (fun a b => a.1 ≠ b.1)

theorem nodupKeys_cons_of_lookup_none {h : String} {g : Int}
    {gens : List (String × Int)} (hnone : lookupGen h gens = none)
    (hnd : NodupKeys gens) : NodupKeys ((h, g) :: gens) := by
  refine List.Pairwise.cons ?_ hnd
  intro b hb
  exact fun hEq => ((lookupGen_eq_none_iff h gens).mp hnone b hb) hEq.symm

theorem nodupKeys_bfsAux (people : List TreeNode) (families : List TreeFamily) :
    ∀ (fuel : Nat) (q gens : List (String × Int)),
      NodupKeys gens → NodupKeys (bfsAux people families fuel q gens) := by
  intro fuel
  induction fuel with
  | zero => intro q gens hnd; simpa [bfsAux] using hnd
  | succ f ih =>
    intro q gens hnd
    cases q with
    | nil => simpa [bfsAux_nil] using hnd
    | cons e rest =>
      obtain ⟨h, g⟩ := e
      rw [bfsAux_cons]
      cases hs : (lookupGen h gens).isSome with
      | true => simp only [if_true]; exact ih rest gens hnd
      | false =>
        simp only [Bool.false_eq_true, if_false]
        have hnone : lookupGen h gens = none := by
          cases hlook : lookupGen h gens with
          | none => rfl
          | some v => rw [hlook] at hs; simp at hs
        have hnd' : NodupKeys ((h, g) :: gens) :=
          nodupKeys_cons_of_lookup_none hnone hnd
        cases personMapGet people h with
        | none => exact ih rest _ hnd'
        | some pers => exact ih _ _ hnd'

theorem nodupKeys_fallback :
    ∀ (ps : List TreeNode) (gens : List (String × Int)),
      NodupKeys gens → NodupKeys (ps.foldl fallbackStep gens) := by
  intro ps
  induction ps with
  | nil => intro gens hnd; simpa using hnd
  | cons p rest ih =>
    intro gens hnd
    have hstep : NodupKeys (fallbackStep gens p) := by
      unfold fallbackStep
      split
      · exact hnd
      · rename_i hnotSome
        have hnone : lookupGen p.handle gens = none := by
          cases hlook : lookupGen p.handle gens with
          | none => rfl
          | some v => rw [hlook] at hnotSome; simp at hnotSome
        exact nodupKeys_cons_of_lookup_none hnone hnd
    simpa using ih (fallbackStep gens p) hstep

theorem nodupKeys_resolveGenerations (people : List TreeNode)
    (families : List TreeFamily) :
    NodupKeys (resolveGenerations people families) := by
  unfold resolveGenerations bfsRun
  exact nodupKeys_fallback people _
    (nodupKeys_bfsAux people families _ _ [] List.Pairwise.nil)

/-- With no duplicate keys, a successful lookup pins the entry count to
exactly one. -/
theorem countP_eq_one_of_lookup (h : String) :
    ∀ (gens : List (String × Int)) (v : Int), NodupKeys gens →
      lookupGen h gens = some v →
      gens.countP (fun e => e.1 == h) = 1 := by
  intro gens
  induction gens with
  | nil => intro v _ hv; simp [lookupGen] at hv
  | cons e es ih =>
    intro v hnd hv
    rw [List.countP_cons]
    by_cases he : e.1 = h
    · have hzero : es.countP (fun e => e.1 == h) = 0 := by
        rw [List.countP_eq_zero]
        intro a ha
        have : e.1 ≠ a.1 := (List.pairwise_cons.mp hnd).1 a ha
        simp only [beq_iff_eq]
        rw [← he]
        exact fun hEq => this hEq.symm
      simp [hzero, he]
    · have hv' : lookupGen h es = some v := by
        have := lookupGen_cons h e.1 e.2 es
        simp only [lookupGen] at hv
        rw [if_neg he] at hv
        exact hv
      have := ih v (List.pairwise_cons.mp hnd).2 hv'
      simp [this, he]

/-- C1: for every input, the generation map built by the resolver assigns
exactly one generation to every person handle appearing in the input people
collection — no person is missing and none has more than one entry. -/
theorem generationMap_total_and_unique (people : List TreeNode)
    (families : List TreeFamily) (p : TreeNode) (hp : p ∈ people) :
    (resolveGenerations people families).countP (fun e => e.1 == p.handle) = 1 := by
  have htot : (lookupGen p.handle (resolveGenerations people families)).isSome := by
    unfold resolveGenerations
    exact fallback_total people _ p hp
  obtain ⟨v, hv⟩ := Option.isSome_iff_exists.mp htot
  exact countP_eq_one_of_lookup p.handle _ v
    (nodupKeys_resolveGenerations people families) hv

/-- Concrete data for witnesses. -/
def wNode : TreeNode :=
  ⟨"W", "W", 1, some 1950, none, true, true, [], [], none⟩

/-- Witness for C1 at a concrete one-person input. -/
theorem generationMap_total_and_unique_witness :
    (resolveGenerations [wNode] []).countP (fun e => e.1 == "W") = 1 :=
  generationMap_total_and_unique [wNode] [] wNode (by decide)

/-! ## Root seeding (claim C2) -/

theorem lookupGen_some_mem {h : String} {v : Int} :
    ∀ {gens : List (String × Int)}, lookupGen h gens = some v →
      ∃ e ∈ gens, e.1 = h ∧ e.2 = v := by
  intro gens
  induction gens with
  | nil => intro hv; simp [lookupGen] at hv
  | cons e es ih =>
    intro hv
    simp only [lookupGen] at hv
    by_cases he : e.1 = h
    · rw [if_pos he] at hv
      exact ⟨e, List.mem_cons_self e es, he, Option.some_injective _ hv⟩
    · rw [if_neg he] at hv
      obtain ⟨e', he', h1, h2⟩ := ih hv
      exact ⟨e', List.mem_cons_of_mem e he', h1, h2⟩

/-- While the seed segment of the queue is being consumed, every seed handle
ends up assigned generation 0: seeds sit in front of every pushed pair, and
only zero-generation entries can enter the map during that phase. -/
theorem bfs_seed_zero (people : List TreeNode) (families : List TreeFamily) :
    ∀ (seeds : List (String × Int)) (fuel : Nat) (rest gens : List (String × Int)),
      seeds.length ≤ fuel →
      (∀ e ∈ seeds, e.2 = 0) →
      (∀ e ∈ gens, e.2 = 0) →
      ∀ e ∈ seeds,
        lookupGen e.1 (bfsAux people families fuel (seeds ++ rest) gens) = some 0 := by
  intro seeds
  induction seeds with
  | nil => intro fuel rest gens _ _ _ e he; cases he
  | cons s ss ih =>
    intro fuel rest gens hlen hseeds hgens e he
    obtain ⟨sh, sg⟩ := s
    have hsg : sg = 0 := hseeds (sh, sg) (List.mem_cons_self _ _)
    subst hsg
    obtain ⟨f, rfl⟩ : ∃ f, fuel = f + 1 := by
      cases fuel with
      | zero => simp at hlen
      | succ f => exact ⟨f, rfl⟩
    have hlen' : ss.length ≤ f := by
      simpa [Nat.succ_le_succ_iff] using hlen
    rw [List.cons_append, bfsAux_cons]
    cases hs : (lookupGen sh gens).isSome with
    | true =>
      simp only [if_true]
      obtain ⟨v, hv⟩ := Option.isSome_iff_exists.mp hs
      obtain ⟨e', he', hfst, hsnd⟩ := lookupGen_some_mem hv
      have hv0 : lookupGen sh gens = some 0 := by
        have hv0' : v = 0 := by rw [← hsnd]; exact hgens e' he'
        rw [hv, hv0']
      rcases List.mem_cons.mp he with rfl | hmem
      · exact lookupGen_persist_bfs people families f (ss ++ rest) gens sh 0 hv0
      · exact ih f rest gens hlen' (fun x hx => hseeds x (List.mem_cons_of_mem _ hx))
          hgens e hmem
    | false =>
      simp only [Bool.false_eq_true, if_false]
      have hgens' : ∀ x ∈ ((sh, (0 : Int)) :: gens), x.2 = 0 := by
        intro x hx
        rcases List.mem_cons.mp hx with rfl | hx'
        · rfl
        · exact hgens x hx'
      have hself : lookupGen sh ((sh, (0 : Int)) :: gens) = some 0 := by
        rw [lookupGen_cons, if_pos rfl]
      cases personMapGet people sh with
      | none =>
        rcases List.mem_cons.mp he with rfl | hmem
        · exact lookupGen_persist_bfs people families f (ss ++ rest) _ sh 0 hself
        · exact ih f rest _ hlen'
            (fun x hx => hseeds x (List.mem_cons_of_mem _ hx)) hgens' e hmem
      | some pers =>
        show lookupGen e.1
            (bfsAux people families f
              (ss ++ rest ++ personPushes families ((sh, (0 : Int)) :: gens) 0 pers)
              ((sh, (0 : Int)) :: gens)) = some 0
        rw [List.append_assoc]
        rcases List.mem_cons.mp he with rfl | hmem
        · exact lookupGen_persist_bfs people families f _ _ sh 0 hself
        · exact ih f _ _ hlen'
            (fun x hx => hseeds x (List.mem_cons_of_mem _ hx)) hgens' e hmem

/-- C2: every valid root — a patrilineal person whose handle appears in no
union's children list — is assigned generation 0 by the resolver. -/
theorem valid_root_generation_zero (people : List TreeNode)
    (families : List TreeFamily) (p : TreeNode) (hp : p ∈ people)
    (hpat : p.isPatrilineal = true)
    (hnc : p.handle ∉ childOfFamily families) :
    lookupGen p.handle (resolveGenerations people families) = some 0 := by
  have hroot : p ∈ rootsOf people families := by
    unfold rootsOf
    rw [List.mem_filter]
    refine ⟨hp, ?_⟩
    simp [hpat, hnc]
  have hseed : (p.handle, (0 : Int)) ∈ initialQueue people families := by
    unfold initialQueue
    exact List.mem_map.mpr ⟨p, hroot, rfl⟩
  have hzero :
      lookupGen p.handle (bfsRun people families) = some 0 := by
    unfold bfsRun
    have := bfs_seed_zero people families (initialQueue people families)
      (bfsMeasure people families (initialQueue people families) []) [] []
      (by unfold bfsMeasure; exact Nat.le_add_left _ _)
      (by
        intro e he
        unfold initialQueue at he
        obtain ⟨r, _, rfl⟩ := List.mem_map.mp he
        rfl)
      (by intro e he; cases he)
      (p.handle, 0) hseed
    simpa using this
  unfold resolveGenerations
  exact lookupGen_persist_fallback people _ p.handle 0 hzero

/-- Witness for C2: a single unambiguous lineage pins generation 0. -/
theorem valid_root_generation_zero_witness :
    lookupGen "W" (resolveGenerations [wNode] []) = some 0 :=
  valid_root_generation_zero [wNode] [] wNode (by decide) (by decide)
    (by decide)

/-! ## Termination of the BFS (claim C10) -/

theorem eq_none_of_isSome_false {α : Type _} {o : Option α}
    (h : o.isSome = false) : o = none := by
  cases o <;> simp at h ⊢

theorem sum_map_filter_le {α : Type _} (f : α → Nat) (p : α → Bool) :
    ∀ (l : List α), ((l.filter p).map f).sum ≤ (l.map f).sum := by
  intro l
  induction l with
  | nil => simp
  | cons x xs ih =>
    cases hx : p x <;> simp [List.filter_cons, hx] <;> omega

theorem sum_map_filter_mono {α : Type _} (f : α → Nat) (p q : α → Bool)
    (himp : ∀ x, q x = true → p x = true) :
    ∀ (l : List α), ((l.filter q).map f).sum ≤ ((l.filter p).map f).sum := by
  intro l
  induction l with
  | nil => simp
  | cons x xs ih =>
    cases hqx : q x with
    | true =>
      have hpx := himp x hqx
      simp [List.filter_cons, hqx, hpx]
      omega
    | false =>
      cases hpx : p x <;> simp [List.filter_cons, hqx, hpx] <;> omega

theorem sum_map_filter_not_mem_le {α : Type _} (f : α → Nat) (p : α → Bool)
    (x : α) :
    ∀ (l : List α), x ∈ l → p x = false →
      ((l.filter p).map f).sum + f x ≤ (l.map f).sum := by
  intro l
  induction l with
  | nil => intro hx; cases hx
  | cons y ys ih =>
    intro hx hpx
    rcases List.mem_cons.mp hx with rfl | hmem
    · simp only [List.filter_cons, hpx, List.map_cons, List.sum_cons,
        Bool.false_eq_true, if_false]
      have := sum_map_filter_le f p ys
      omega
    · have hys := ih hmem hpx
      cases hpy : p y <;>
        simp only [List.filter_cons, hpy, List.map_cons, List.sum_cons,
          Bool.false_eq_true, if_false, if_true] <;> omega

theorem condPush_length (gens : List (String × Int)) (g : Int)
    (oh : Option String) : (condPush gens g oh).length ≤ 1 := by
  cases hst : strTruthy oh with
  | none => simp [condPush, hst]
  | some h =>
    simp only [condPush, hst]
    split <;> simp

theorem famPushes_length (gens : List (String × Int)) (g : Int)
    (fam : TreeFamily) :
    (famPushes gens g fam).length ≤ 2 + fam.children.length := by
  unfold famPushes
  have h1 := condPush_length gens g fam.fatherHandle
  have h2 := condPush_length gens g fam.motherHandle
  have h3 : (fam.children.filterMap (fun ch =>
      if (lookupGen ch gens).isNone then some (ch, g + 1) else none)).length ≤
      fam.children.length := List.length_filterMap_le _ _
  simp only [List.length_append]
  omega

theorem famIdPushes_length (families : List TreeFamily)
    (gens : List (String × Int)) (g : Int) (famId : String) :
    (famIdPushes families gens g famId).length ≤ famIdBound families famId := by
  unfold famIdPushes famIdBound
  cases familyMapGet families famId with
  | none => simp
  | some fam => exact famPushes_length gens g fam

theorem flatPushes_length (families : List TreeFamily)
    (gens : List (String × Int)) (g : Int) :
    ∀ (fids : List String),
      (fids.flatMap (famIdPushes families gens g)).length ≤
      (fids.map (famIdBound families)).sum := by
  intro fids
  induction fids with
  | nil => simp
  | cons fid rest ih =>
    rw [List.flatMap_cons, List.map_cons, List.length_append, List.sum_cons]
    have hfl := famIdPushes_length families gens g fid
    omega

theorem personPushes_length (families : List TreeFamily)
    (gens : List (String × Int)) (g : Int) (pers : TreeNode) :
    (personPushes families gens g pers).length ≤ pushBound families pers :=
  flatPushes_length families gens g pers.families

theorem personMapGet_aux (h : String) :
    ∀ (people : List TreeNode) (acc : Option TreeNode) (pers : TreeNode),
      people.foldl (fun acc p => if p.handle = h then some p else acc) acc
        = some pers →
      (pers ∈ people ∧ pers.handle = h) ∨ acc = some pers := by
  intro people
  induction people with
  | nil => intro acc pers hacc; right; simpa using hacc
  | cons q qs ih =>
    intro acc pers hacc
    rw [List.foldl_cons] at hacc
    rcases ih _ pers hacc with ⟨hmem, hh⟩ | hacc'
    · exact Or.inl ⟨List.mem_cons_of_mem _ hmem, hh⟩
    · by_cases hq : q.handle = h
      · rw [if_pos hq] at hacc'
        left
        refine ⟨?_, ?_⟩
        · rw [← Option.some_injective _ hacc']
          exact List.mem_cons_self _ _
        · rw [← Option.some_injective _ hacc']
          exact hq
      · rw [if_neg hq] at hacc'
        exact Or.inr hacc'

theorem personMapGet_mem {people : List TreeNode} {h : String}
    {pers : TreeNode} (hpm : personMapGet people h = some pers) :
    pers ∈ people ∧ pers.handle = h := by
  rcases personMapGet_aux h people none pers hpm with hok | hbad
  · exact hok
  · cases hbad

/-- Inserting an assignment can only shrink the unassigned-people
potential. -/
theorem sum_unassigned_cons_le (people : List TreeNode)
    (families : List TreeFamily) (h : String) (g : Int)
    (gens : List (String × Int)) :
    ((people.filter (fun p =>
        (lookupGen p.handle ((h, g) :: gens)).isNone)).map
      (pushBound families)).sum ≤
    ((people.filter (fun p => (lookupGen p.handle gens).isNone)).map
      (pushBound families)).sum := by
  apply sum_map_filter_mono
  intro x hx
  rw [lookupGen_cons] at hx
  by_cases hhx : h = x.handle
  · rw [if_pos hhx] at hx; simp at hx
  · rwa [if_neg hhx] at hx

/-- Assigning a person found in the person map shrinks the potential by at
least that person's push bound. -/
theorem sum_unassigned_drop (people : List TreeNode)
    (families : List TreeFamily) (h : String) (g : Int)
    (gens : List (String × Int)) (pers : TreeNode)
    (hnone : lookupGen h gens = none)
    (hpm : personMapGet people h = some pers) :
    ((people.filter (fun p =>
        (lookupGen p.handle ((h, g) :: gens)).isNone)).map
      (pushBound families)).sum + pushBound families pers ≤
    ((people.filter (fun p => (lookupGen p.handle gens).isNone)).map
      (pushBound families)).sum := by
  obtain ⟨hmem, hhandle⟩ := personMapGet_mem hpm
  have hfilter :
      people.filter (fun p => (lookupGen p.handle ((h, g) :: gens)).isNone) =
      (people.filter (fun p => (lookupGen p.handle gens).isNone)).filter
        (fun p => !(p.handle == h)) := by
    rw [List.filter_filter]
    apply List.filter_congr
    intro x _
    rw [lookupGen_cons]
    by_cases hhx : h = x.handle
    · rw [if_pos hhx, hhx]
      simp
    · rw [if_neg hhx]
      have : (x.handle == h) = false := by
        simp only [beq_eq_false_iff_ne]
        exact fun hEq => hhx hEq.symm
      simp [this]
  rw [hfilter]
  apply sum_map_filter_not_mem_le
  · rw [List.mem_filter]
    refine ⟨hmem, ?_⟩
    rw [hhandle, hnone]
    rfl
  · simp [hhandle]

/-- Fueled-execution stability: once the fuel reaches the measure, adding
more fuel never changes the BFS result (the worklist loop needs at most
`bfsMeasure` iterations). -/
theorem bfsAux_stabilizes (people : List TreeNode) (families : List TreeFamily) :
    ∀ (n fuel : Nat) (q gens : List (String × Int)),
      bfsMeasure people families q gens ≤ n → n ≤ fuel →
      bfsAux people families fuel q gens = bfsAux people families n q gens := by
  intro n
  induction n using Nat.strong_induction_on with
  | _ n ih =>
    intro fuel q gens hμ hnf
    cases q with
    | nil => rw [bfsAux_nil, bfsAux_nil]
    | cons e rest =>
      obtain ⟨h, g⟩ := e
      have hμ1 : 1 ≤ bfsMeasure people families ((h, g) :: rest) gens := by
        unfold bfsMeasure
        rw [List.length_cons]
        omega
      obtain ⟨m, rfl⟩ : ∃ m, n = m + 1 := ⟨n - 1, by omega⟩
      obtain ⟨f, rfl⟩ : ∃ f, fuel = f + 1 := ⟨fuel - 1, by omega⟩
      rw [bfsAux_cons, bfsAux_cons]
      have hq : bfsMeasure people families ((h, g) :: rest) gens =
          ((people.filter (fun p => (lookupGen p.handle gens).isNone)).map
            (pushBound families)).sum + rest.length + 1 := by
        unfold bfsMeasure
        rw [List.length_cons]
        omega
      cases hs : (lookupGen h gens).isSome with
      | true =>
        simp only [if_true]
        have hd : bfsMeasure people families rest gens ≤ m := by
          unfold bfsMeasure
          omega
        exact ih m (by omega) f rest gens hd (by omega)
      | false =>
        simp only [Bool.false_eq_true, if_false]
        have hnone : lookupGen h gens = none := eq_none_of_isSome_false hs
        cases hpm : personMapGet people h with
        | none =>
          have hmono := sum_unassigned_cons_le people families h g gens
          have hd : bfsMeasure people families rest ((h, g) :: gens) ≤ m := by
            unfold bfsMeasure
            omega
          exact ih m (by omega) f rest ((h, g) :: gens) hd (by omega)
        | some pers =>
          have hdrop := sum_unassigned_drop people families h g gens pers
            hnone hpm
          have hplen := personPushes_length families ((h, g) :: gens) g pers
          have hd : bfsMeasure people families
              (rest ++ personPushes families ((h, g) :: gens) g pers)
              ((h, g) :: gens) ≤ m := by
            unfold bfsMeasure
            rw [List.length_append]
            omega
          exact ih m (by omega) f _ _ hd (by omega)

/-- C10: the breadth-first traversal of the generation resolver terminates on
every finite input, including cyclic or inconsistent union graphs: running
the worklist with any fuel at least `bfsMeasure` (the bound the resolver
itself uses) gives exactly the result of the resolver's run — the
first-assignment-wins check prevents any handle from being processed twice,
so no extra fuel is ever consumed and no error or cycle report is possible. -/
theorem bfs_traversal_terminates (people : List TreeNode)
    (families : List TreeFamily) (fuel : Nat)
    (hfuel : bfsMeasure people families (initialQueue people families) [] ≤ fuel) :
    bfsAux people families fuel (initialQueue people families) [] =
      bfsRun people families := by
  unfold bfsRun
  exact bfsAux_stabilizes people families
    (bfsMeasure people families (initialQueue people families) []) fuel
    (initialQueue people families) [] (Nat.le_refl _) hfuel

/-- Cyclic test data: `X` and `Y` are each other's ancestors through the
unions `CF1` and `CF2`. -/
def cycNodeX : TreeNode :=
  ⟨"X", "X", 1, none, none, true, true, ["CF1"], ["CF2"], none⟩

def cycNodeY : TreeNode :=
  ⟨"Y", "Y", 1, none, none, true, true, ["CF2"], ["CF1"], none⟩

def cycFam1 : TreeFamily := ⟨"CF1", some "X", none, ["Y"]⟩

def cycFam2 : TreeFamily := ⟨"CF2", some "Y", none, ["X"]⟩

/-- Witness for C10 on a cyclic union graph: extra fuel beyond the measure
changes nothing. -/
theorem bfs_traversal_terminates_witness :
    bfsAux [cycNodeX, cycNodeY] [cycFam1, cycFam2]
        (bfsMeasure [cycNodeX, cycNodeY] [cycFam1, cycFam2]
          (initialQueue [cycNodeX, cycNodeY] [cycFam1, cycFam2]) [] + 7)
        (initialQueue [cycNodeX, cycNodeY] [cycFam1, cycFam2]) [] =
      bfsRun [cycNodeX, cycNodeY] [cycFam1, cycFam2] :=
  bfs_traversal_terminates [cycNodeX, cycNodeY] [cycFam1, cycFam2] _
    (by omega)

/-! ## Generation propagation (claim C3) -/

theorem mem_famPushes_father {gens : List (String × Int)} {g : Int}
    {fam : TreeFamily} {q : String}
    (hq : strTruthy fam.fatherHandle = some q)
    (hnone : lookupGen q gens = none) :
    (q, g) ∈ famPushes gens g fam := by
  unfold famPushes
  apply List.mem_append_left
  apply List.mem_append_left
  simp only [condPush, hq, hnone]
  simp

theorem mem_famPushes_mother {gens : List (String × Int)} {g : Int}
    {fam : TreeFamily} {q : String}
    (hq : strTruthy fam.motherHandle = some q)
    (hnone : lookupGen q gens = none) :
    (q, g) ∈ famPushes gens g fam := by
  unfold famPushes
  apply List.mem_append_left
  apply List.mem_append_right
  simp only [condPush, hq, hnone]
  simp

theorem mem_famPushes_child {gens : List (String × Int)} {g : Int}
    {fam : TreeFamily} {c : String} (hc : c ∈ fam.children)
    (hnone : lookupGen c gens = none) :
    (c, g + 1) ∈ famPushes gens g fam := by
  unfold famPushes
  apply List.mem_append_right
  exact List.mem_filterMap.mpr ⟨c, hc, by simp [hnone]⟩

theorem mem_personPushes {families : List TreeFamily}
    {gens : List (String × Int)} {g : Int} {pers : TreeNode} {famId : String}
    {x : String × Int} (hfamId : famId ∈ pers.families)
    (hx : x ∈ famIdPushes families gens g famId) :
    x ∈ personPushes families gens g pers :=
  List.mem_flatMap.mpr ⟨famId, hfamId, hx⟩

/-- Unfolding of the assigning BFS step: an unassigned dequeued handle whose
person record resolves is assigned its queued generation and its unions'
pushes are appended. -/
theorem bfsAux_step_assign {people : List TreeNode}
    {families : List TreeFamily} {h : String} {g : Int}
    {rest gens : List (String × Int)} {pers : TreeNode} (fuel : Nat)
    (hnone : lookupGen h gens = none)
    (hpers : personMapGet people h = some pers) :
    bfsAux people families (fuel + 1) ((h, g) :: rest) gens =
      bfsAux people families fuel
        (rest ++ personPushes families ((h, g) :: gens) g pers)
        ((h, g) :: gens) := by
  rw [bfsAux_cons, hnone]
  simp only [Option.isSome_none, Bool.false_eq_true, if_false, hpers]

/-- A dequeued pair whose handle is still unassigned gets exactly its queued
generation in the final map (first assignment wins and is never
overwritten). -/
theorem bfs_first_assignment_wins (people : List TreeNode)
    (families : List TreeFamily) :
    ∀ (h' : String) (g' : Int) (rest' gens' : List (String × Int))
      (fuel' : Nat),
      lookupGen h' gens' = none →
      lookupGen h'
        (bfsAux people families (fuel' + 1) ((h', g') :: rest') gens')
        = some g' := by
  intro h' g' rest' gens' fuel' hn
  rw [bfsAux_cons, hn]
  simp only [Option.isSome_none, Bool.false_eq_true, if_false]
  have hself : lookupGen h' ((h', g') :: gens') = some g' := by
    rw [lookupGen_cons, if_pos rfl]
  cases personMapGet people h' with
  | none => exact lookupGen_persist_bfs people families fuel' _ _ h' g' hself
  | some pers => exact lookupGen_persist_bfs people families fuel' _ _ h' g' hself

/-- C3: the propagation law of the resolver.  When the BFS dequeues a person
at generation `g` who is not yet assigned ("no earlier-processed path
assigned them first"), then (1) the step the run takes appends exactly the
person's union pushes and records the assignment, (2) the person is mapped
to `g`, (3) for every union of that person, a truthy parent handle other
than the person (hence the spouse) still unassigned is enqueued at the SAME
generation `g`, (4) every still-unassigned child of that union is enqueued
at generation `g + 1`, and (5) any pair dequeued while its handle is
unassigned resolves to exactly its queued generation in the final map — so a
person reachable only through this union receives the propagated value. -/
theorem generation_propagation (people : List TreeNode)
    (families : List TreeFamily) (h : String) (g : Int)
    (rest gens : List (String × Int)) (pers : TreeNode) (famId : String)
    (fam : TreeFamily) (fuel : Nat)
    (hnone : lookupGen h gens = none)
    (hpers : personMapGet people h = some pers)
    (hfamId : famId ∈ pers.families)
    (hfam : familyMapGet families famId = some fam) :
    (bfsAux people families (fuel + 1) ((h, g) :: rest) gens =
      bfsAux people families fuel
        (rest ++ personPushes families ((h, g) :: gens) g pers)
        ((h, g) :: gens)) ∧
    lookupGen h ((h, g) :: gens) = some g ∧
    (∀ q, (strTruthy fam.fatherHandle = some q ∨
           strTruthy fam.motherHandle = some q) →
      lookupGen q ((h, g) :: gens) = none →
      (q, g) ∈ personPushes families ((h, g) :: gens) g pers) ∧
    (∀ c ∈ fam.children, lookupGen c ((h, g) :: gens) = none →
      (c, g + 1) ∈ personPushes families ((h, g) :: gens) g pers) ∧
    (∀ (h' : String) (g' : Int) (rest' gens' : List (String × Int))
      (fuel' : Nat),
      lookupGen h' gens' = none →
      lookupGen h'
        (bfsAux people families (fuel' + 1) ((h', g') :: rest') gens')
        = some g') := by
  refine ⟨bfsAux_step_assign fuel hnone hpers, ?_, ?_, ?_, ?_⟩
  · rw [lookupGen_cons, if_pos rfl]
  · intro q hq hqnone
    have hmem : (q, g) ∈ famIdPushes families ((h, g) :: gens) g famId := by
      unfold famIdPushes
      rw [hfam]
      rcases hq with hq | hq
      · exact mem_famPushes_father hq hqnone
      · exact mem_famPushes_mother hq hqnone
    exact mem_personPushes hfamId hmem
  · intro c hc hcnone
    have hmem : (c, g + 1) ∈ famIdPushes families ((h, g) :: gens) g famId := by
      unfold famIdPushes
      rw [hfam]
      exact mem_famPushes_child hc hcnone
    exact mem_personPushes hfamId hmem
  · exact bfs_first_assignment_wins people families

/-- Concrete example lineage used by witnesses: `A` (patrilineal root) and
`B` (married-in spouse) with child `C` through union `F`. -/
def pExA : TreeNode := ⟨"A", "A", 1, some 1950, none, true, true, ["F"], [], none⟩

def pExB : TreeNode := ⟨"B", "B", 0, none, none, true, false, ["F"], [], none⟩

def pExC : TreeNode := ⟨"C", "C", 1, none, none, true, true, [], ["F"], none⟩

def fExF : TreeFamily := ⟨"F", some "A", some "B", ["C"]⟩

/-- Witness for C3: the concrete first step of the run on the example
lineage takes exactly the described form. -/
theorem generation_propagation_witness :
    bfsAux [pExA, pExB, pExC] [fExF] (5 + 1) [("A", 0)] [] =
      bfsAux [pExA, pExB, pExC] [fExF] 5
        ([] ++ personPushes [fExF] [("A", 0)] 0 pExA) [("A", 0)] :=
  (generation_propagation [pExA, pExB, pExC] [fExF] "A" 0 [] [] pExA "F"
    fExF 5 (by decide) (by decide) (by decide) (by decide)).1

/-! ## Fallback rule (claim C8) -/

/-- The fallback pass assigns exactly `fallbackGen p` to every person of the
scanned list whose handle is still unassigned, provided handles are unique
(the spec's Person invariant). -/
theorem fallback_assigns :
    ∀ (ps : List TreeNode) (gens : List (String × Int)) (p : TreeNode),
      (ps.map (fun x => x.handle)).Nodup →
      p ∈ ps →
      lookupGen p.handle gens = none →
      lookupGen p.handle (ps.foldl fallbackStep gens) = some (fallbackGen p) := by
  intro ps
  induction ps with
  | nil => intro gens p _ hp; cases hp
  | cons q qs ih =>
    intro gens p hnodup hp hnone
    rw [List.foldl_cons]
    rcases List.mem_cons.mp hp with rfl | hmem
    · have hstep : lookupGen p.handle (fallbackStep gens p) =
          some (fallbackGen p) := by
        unfold fallbackStep
        rw [hnone]
        simp only [Option.isSome_none, Bool.false_eq_true, if_false]
        rw [lookupGen_cons, if_pos rfl]
      exact lookupGen_persist_fallback qs _ p.handle (fallbackGen p) hstep
    · have hqp : q.handle ≠ p.handle := by
        intro hEq
        have : q.handle ∈ qs.map (fun x => x.handle) :=
          List.mem_map.mpr ⟨p, hmem, hEq.symm⟩
        exact (List.nodup_cons.mp (by simpa using hnodup)).1 this
      have hnone' : lookupGen p.handle (fallbackStep gens q) = none := by
        unfold fallbackStep
        split
        · exact hnone
        · rw [lookupGen_cons, if_neg hqp]; exact hnone
      exact ih (fallbackStep gens q) p
        (List.nodup_cons.mp (by simpa using hnodup)).2 hmem hnone'

/-- C8 (amended): a person never reached by the BFS is assigned
`generationHint - 1` when a NONZERO hint is present, and `0` when the hint
is absent or zero (a hint of `0` is falsy in JavaScript and falls through
to the default); persons reached by the traversal keep their BFS value
untouched by the fallback pass. -/
theorem fallback_rule (people : List TreeNode) (families : List TreeFamily)
    (p : TreeNode) (hp : p ∈ people)
    (hnodup : (people.map (fun x => x.handle)).Nodup) :
    (lookupGen p.handle (bfsRun people families) = none →
      lookupGen p.handle (resolveGenerations people families) =
        some (match p.generation with
          | some hint => if hint ≠ 0 then hint - 1 else 0
          | none => 0)) ∧
    (∀ v, lookupGen p.handle (bfsRun people families) = some v →
      lookupGen p.handle (resolveGenerations people families) = some v) := by
  constructor
  · intro hmiss
    have hfb : fallbackGen p =
        (match p.generation with
          | some hint => if hint ≠ 0 then hint - 1 else 0
          | none => 0) := by
      unfold fallbackGen numTruthy
      cases hg : p.generation with
      | none => rfl
      | some hint =>
        by_cases h0 : hint = 0
        · subst h0; simp
        · simp [h0]
    rw [← hfb]
    unfold resolveGenerations
    exact fallback_assigns people _ p hnodup hp hmiss
  · intro v hv
    unfold resolveGenerations
    exact lookupGen_persist_fallback people _ p.handle v hv

/-- Disconnected person with generation hint 5. -/
def z5Node : TreeNode := ⟨"Z5", "Z5", 1, none, none, true, false, [], [], some 5⟩

/-- Witness for C8: a disconnected person with hint 5 resolves to
generation 4. -/
theorem fallback_rule_witness :
    lookupGen "Z5" (resolveGenerations [z5Node] []) = some 4 :=
  (fallback_rule [z5Node] [] z5Node (by decide) (by decide)).1 (by decide)

/-- Disconnected person whose generation hint is 0. -/
def z0Node : TreeNode := ⟨"Z0", "Z0", 1, none, none, true, false, [], [], some 0⟩

/-- C8 counterexample: the claim as stated says a PRESENT hint always yields
`hint - 1`, so a disconnected person with hint `0` should resolve to `-1`;
the code's JavaScript truthiness check treats the zero hint as absent and
assigns `0` instead. -/
theorem fallback_hint_zero_counterexample :
    z0Node.generation = some 0 ∧
    lookupGen "Z0" (resolveGenerations [z0Node] []) = some 0 ∧
    some (0 : Int) ≠ some ((0 : Int) - 1) :=
  ⟨rfl, by decide, by decide⟩

/-! ## Lifespan formatting (claim C9) -/

/-- C9 (amended): lifespan formatting, with a year of `0` behaving as
absent (JavaScript truthiness): no truthy birth year gives the em-dash
placeholder; truthy birth and death give "birth – death"; truthy birth, no
truthy death and living gives "birth – nay"; truthy birth, no truthy death
and not living gives the birth year alone. -/
theorem formatYears_spec (birth death : Option Int) (isLiving : Bool) :
    (birth = none ∨ birth = some 0 →
      formatYears birth death isLiving = "—") ∧
    (∀ b, birth = some b → b ≠ 0 →
      (∀ d, death = some d → d ≠ 0 →
        formatYears birth death isLiving =
          toString b ++ " – " ++ toString d) ∧
      ((death = none ∨ death = some 0) →
        (isLiving = true →
          formatYears birth death isLiving = toString b ++ " – nay") ∧
        (isLiving = false →
          formatYears birth death isLiving = toString b))) := by
  constructor
  · intro hb
    rcases hb with rfl | rfl <;> rfl
  · intro b hb hbne
    subst hb
    constructor
    · intro d hd hdne
      subst hd
      simp [formatYears, numTruthy, hbne, hdne]
    · intro hd
      rcases hd with rfl | rfl <;>
        exact ⟨fun hl => by subst hl; simp [formatYears, numTruthy, hbne],
               fun hl => by subst hl; simp [formatYears, numTruthy, hbne]⟩

/-- Witness for C9: birth 1950, no death, living formats as "1950 – nay". -/
theorem formatYears_spec_witness :
    formatYears (some 1950) none true = toString (1950 : Int) ++ " – nay" :=
  (((formatYears_spec (some 1950) none true).2 1950 rfl (by decide)).2
    (Or.inl rfl)).1 rfl

/-- C9 counterexample: the claim as stated says a present birth year with no
death year and a non-living person formats as the birth year alone, so
birth year `0` should give "0"; the code's JavaScript truthiness makes a
zero birth year falsy, producing the em-dash placeholder instead. -/
theorem formatYears_zero_counterexample :
    formatYears (some 0) none false = "—" ∧
    formatYears (some 0) none false ≠ toString (0 : Int) :=
  ⟨rfl, by decide⟩

/-! ## Parent names (claim C5) -/

/-- The display name contributed by one parent union's father slot: defined
when the union resolves, its father handle is truthy, and the father's
person record exists. -/
def fatherResolve (people : List TreeNode) (families : List TreeFamily)
    (pfId : String) : Option String :=
  (familyMapGet families pfId).bind (fun pf =>
    (strTruthy pf.fatherHandle).bind (fun fh =>
      (personMapGet people fh).map (fun f => f.displayName)))

/-- The display name contributed by one parent union's mother slot. -/
def motherResolve (people : List TreeNode) (families : List TreeFamily)
    (pfId : String) : Option String :=
  (familyMapGet families pfId).bind (fun pf =>
    (strTruthy pf.motherHandle).bind (fun mh =>
      (personMapGet people mh).map (fun m => m.displayName)))

theorem parentStep_fst (people : List TreeNode) (families : List TreeFamily)
    (acc : Option String × Option String) (pfId : String) :
    (parentStep people families acc pfId).1 =
      (fatherResolve people families pfId).or acc.1 := by
  unfold parentStep fatherResolve
  cases familyMapGet families pfId with
  | none => simp
  | some pf =>
    cases hst : strTruthy pf.fatherHandle with
    | none => simp [hst]
    | some fh =>
      cases hpg : personMapGet people fh with
      | none => simp [hst, hpg]
      | some father => simp [hst, hpg]

theorem parentStep_snd (people : List TreeNode) (families : List TreeFamily)
    (acc : Option String × Option String) (pfId : String) :
    (parentStep people families acc pfId).2 =
      (motherResolve people families pfId).or acc.2 := by
  unfold parentStep motherResolve
  cases familyMapGet families pfId with
  | none => simp
  | some pf =>
    cases hst : strTruthy pf.motherHandle with
    | none => simp [hst]
    | some mh =>
      cases hpg : personMapGet people mh with
      | none => simp [hst, hpg]
      | some mother => simp [hst, hpg]

theorem getLast?_cons_or {α : Type _} (a : α) :
    ∀ (l : List α), (a :: l).getLast? = l.getLast?.or (some a) := by
  intro l
  induction l generalizing a with
  | nil => rfl
  | cons b bs ih =>
    rw [List.getLast?_cons_cons, ih b]
    rw [Option.or_assoc, Option.or_some]

/-- The parent-name fold computes, per component, the LAST resolvable name
over the scanned prefix (or the initial accumulator). -/
theorem parentNames_fold (people : List TreeNode) (families : List TreeFamily) :
    ∀ (l : List String) (acc : Option String × Option String),
      l.foldl (parentStep people families) acc =
        ((l.filterMap (fatherResolve people families)).getLast?.or acc.1,
         (l.filterMap (motherResolve people families)).getLast?.or acc.2) := by
  intro l
  induction l with
  | nil => intro acc; simp
  | cons pfId rest ih =>
    intro acc
    rw [List.foldl_cons, ih, List.filterMap_cons, List.filterMap_cons]
    rw [parentStep_fst, parentStep_snd]
    cases hf : fatherResolve people families pfId <;>
      cases hm : motherResolve people families pfId <;>
        simp [getLast?_cons_or, Option.or_assoc]

/-- C5 (amended): `fatherName` comes from the LAST parent union in list
order with a resolvable father (later unions overwrite earlier ones), and
`motherName` independently from the LAST with a resolvable mother — not
from the first such union. -/
theorem parentNames_last_wins (people : List TreeNode)
    (families : List TreeFamily) (p : TreeNode) :
    parentNamesOf people families p =
      ((p.parentFamilies.filterMap (fatherResolve people families)).getLast?,
       (p.parentFamilies.filterMap (motherResolve people families)).getLast?) := by
  unfold parentNamesOf
  rw [parentNames_fold]
  simp

/-- Concrete remarriage-style data for C5: `P5` belongs to two parent
unions, `F51` with father `A5` and `F52` with father `B5`. -/
def pC5A : TreeNode := ⟨"A5", "A5", 1, none, none, true, true, ["F51"], [], none⟩

def pC5B : TreeNode := ⟨"B5", "B5", 1, none, none, true, true, ["F52"], [], none⟩

def pC5P : TreeNode :=
  ⟨"P5", "P5", 1, none, none, true, true, [], ["F51", "F52"], none⟩

def fC51 : TreeFamily := ⟨"F51", some "A5", none, ["P5"]⟩

def fC52 : TreeFamily := ⟨"F52", some "B5", none, ["P5"]⟩

/-- C5 counterexample: with two parent unions both carrying a recorded
father, the book entry of `P5` shows the father of the SECOND union
(`B5`), while the claim says the FIRST union (`A5`) alone contributes the
parent names. -/
theorem parentNames_first_union_counterexample :
    ((generateBookData [pC5A, pC5B, pC5P] [fC51, fC52] "H" "d"
        (fun _ _ => 0)).chapters.map (fun ch =>
          ch.members.map (fun m => (m.handle, m.fatherName)))) =
      [[("A5", none), ("B5", none)], [("P5", some "B5")]] ∧
    (some "B5" : Option String) ≠ some "A5" :=
  ⟨by decide, by decide⟩

/-! ## Spouse and children scan (claim C4) -/

/-- The spouse record resolved through one union: the union must resolve,
the other parent slot must be truthy, and the spouse's person record must
exist. -/
def spouseResolve (people : List TreeNode) (families : List TreeFamily)
    (p : TreeNode) (famId : String) : Option TreeNode :=
  (familyMapGet families famId).bind (fun fam =>
    (strTruthy (if fam.fatherHandle = some p.handle then fam.motherHandle
                else fam.fatherHandle)).bind
      (fun sh => personMapGet people sh))

/-- The children entries contributed by one union identifier. -/
def famChildEntries (people : List TreeNode) (families : List TreeFamily)
    (famId : String) : List ChildEntry :=
  match familyMapGet families famId with
  | some fam => unionChildEntries people fam
  | none => []

theorem spouseStep_eq (people : List TreeNode) (families : List TreeFamily)
    (p : TreeNode) (acc : SpouseInfo) (famId : String) :
    spouseStep people families p acc famId =
      { spouseName := ((spouseResolve people families p famId).map
          (fun s => s.displayName)).or acc.spouseName
        spouseYears := ((spouseResolve people families p famId).map
          (fun s => formatYears s.birthYear s.deathYear s.isLiving)).or
            acc.spouseYears
        spouseNote :=
          match spouseResolve people families p famId with
          | some s => if !s.isPatrilineal then some "Ngoại tộc"
                      else acc.spouseNote
          | none => acc.spouseNote
        children := acc.children ++ famChildEntries people families famId } := by
  unfold spouseStep spouseResolve famChildEntries
  cases hfm : familyMapGet families famId with
  | none => simp [hfm]
  | some fam =>
    cases hst : strTruthy (if fam.fatherHandle = some p.handle
        then fam.motherHandle else fam.fatherHandle) with
    | none => simp [hfm, hst]
    | some sh =>
      cases hpg : personMapGet people sh with
      | none => simp [hfm, hst, hpg]
      | some spouse => simp [hfm, hst, hpg]

/-- The spouse/children fold computes the LAST resolvable spouse's name and
lifespan, a sticky out-of-lineage note (set as soon as ANY resolvable
spouse is non-patrilineal), and the concatenation of all unions' children
entries. -/
theorem spouseChildren_fold (people : List TreeNode)
    (families : List TreeFamily) (p : TreeNode) :
    ∀ (l : List String) (acc : SpouseInfo),
      l.foldl (spouseStep people families p) acc =
        { spouseName := ((l.filterMap (spouseResolve people families p)).getLast?.map
            (fun s => s.displayName)).or acc.spouseName
          spouseYears := ((l.filterMap (spouseResolve people families p)).getLast?.map
            (fun s => formatYears s.birthYear s.deathYear s.isLiving)).or
              acc.spouseYears
          spouseNote :=
            if (l.filterMap (spouseResolve people families p)).any
                (fun s => !s.isPatrilineal) then some "Ngoại tộc"
            else acc.spouseNote
          children := acc.children ++
            l.flatMap (famChildEntries people families) } := by
  intro l
  induction l with
  | nil => intro acc; simp
  | cons famId rest ih =>
    intro acc
    rw [List.foldl_cons, spouseStep_eq, ih]
    rw [List.filterMap_cons, List.flatMap_cons]
    have hmap : ∀ {β : Type} (f : TreeNode → β) (s : TreeNode)
        (x : Option TreeNode),
        (x.or (some s)).map f = (x.map f).or (some (f s)) := by
      intro β f s x; cases x <;> rfl
    cases hs : spouseResolve people families p famId with
    | none => simp [List.append_assoc]
    | some s =>
      cases ha : (rest.filterMap (spouseResolve people families p)).any
          (fun t => !t.isPatrilineal) <;>
        cases hb : s.isPatrilineal <;>
          simp [ha, hb, getLast?_cons_or, hmap, Option.or_assoc,
            Option.or_some, List.append_assoc]

/-- C4 (amended): the spouse name and lifespan of a book entry come from
the LAST union in the person's families list with a resolvable spouse in
the other parent slot, children from ALL unions accumulate in order (union
order, then child order), BUT the out-of-lineage note is sticky: it is set
as soon as any iterated resolvable spouse is non-patrilineal and is never
cleared by a later in-lineage spouse, so it need not describe the retained
(last) spouse. -/
theorem spouse_children_scan (people : List TreeNode)
    (families : List TreeFamily) (p : TreeNode) :
    spouseChildrenOf people families p =
      { spouseName := ((p.families.filterMap
            (spouseResolve people families p)).getLast?).map
          (fun s => s.displayName)
        spouseYears := ((p.families.filterMap
            (spouseResolve people families p)).getLast?).map
          (fun s => formatYears s.birthYear s.deathYear s.isLiving)
        spouseNote :=
          if (p.families.filterMap (spouseResolve people families p)).any
              (fun s => !s.isPatrilineal) then some "Ngoại tộc"
          else none
        children := p.families.flatMap (famChildEntries people families) } := by
  unfold spouseChildrenOf
  rw [spouseChildren_fold]
  simp

/-- Concrete remarriage data for C4: `P4` is a parent in `F41` (spouse
`S41`, out of lineage) and then in `F42` (spouse `S42`, patrilineal). -/
def pC4P : TreeNode :=
  ⟨"P4", "P4", 1, none, none, true, true, ["F41", "F42"], [], none⟩

def pC4S1 : TreeNode := ⟨"S41", "S41", 0, none, none, true, false, ["F41"], [], none⟩

def pC4S2 : TreeNode := ⟨"S42", "S42", 0, none, none, true, true, ["F42"], [], none⟩

def fC41 : TreeFamily := ⟨"F41", some "P4", some "S41", []⟩

def fC42 : TreeFamily := ⟨"F42", some "P4", some "S42", []⟩

/-- C4 counterexample: the spouse slot of `P4` names the last union's
spouse `S42`, who is patrilineal, yet the out-of-lineage note left by the
FIRST union's spouse `S41` is still attached — so the three spouse fields
do NOT all hold values derived from the last union with a spouse, as the
claim states (the claim would require `spouseNote = none` here). -/
theorem spouse_overwrite_counterexample :
    (((generateBookData [pC4P, pC4S1, pC4S2] [fC41, fC42] "H" "d"
        (fun _ _ => 0)).chapters.headD default).members.headD default |>
      fun m => (m.handle, m.spouseName, m.spouseNote)) =
      ("P4", some "S42", some "Ngoại tộc") ∧
    pC4S2.isPatrilineal = true :=
  ⟨by decide, rfl⟩

/-! ## Chapter assembly and the stable sort (claim C6) -/

theorem mem_insertTail {α : Type _} (le : α → α → Bool) (x : α) :
    ∀ (l : List α) (z : α), z ∈ insertTail le x l → z = x ∨ z ∈ l := by
  intro l
  induction l with
  | nil =>
    intro z hz
    simp [insertTail] at hz
    exact Or.inl hz
  | cons y ys ih =>
    intro z hz
    unfold insertTail at hz
    by_cases hle : le y x = true
    · rw [if_pos hle] at hz
      rcases List.mem_cons.mp hz with rfl | hz'
      · exact Or.inr (List.mem_cons_self _ _)
      · rcases ih z hz' with rfl | hmem
        · exact Or.inl rfl
        · exact Or.inr (List.mem_cons_of_mem _ hmem)
    · rw [if_neg hle] at hz
      rcases List.mem_cons.mp hz with rfl | hz'
      · exact Or.inl rfl
      · exact Or.inr hz'

theorem insertTail_pairwise {α : Type _} (key : α → Nat) (x : α) :
    ∀ (l : List α),
      l.Pairwise (fun a b => key a ≤ key b) →
      (insertTail (fun a b => decide (key a ≤ key b)) x l).Pairwise
        (fun a b => key a ≤ key b) := by
  intro l
  induction l with
  | nil => intro _; simp [insertTail]
  | cons y ys ih =>
    intro hp
    obtain ⟨hy, hys⟩ := List.pairwise_cons.mp hp
    unfold insertTail
    by_cases hle : key y ≤ key x
    · rw [if_pos (decide_eq_true hle)]
      refine List.pairwise_cons.mpr ⟨?_, ih hys⟩
      intro z hz
      rcases mem_insertTail _ x ys z hz with rfl | hmem
      · exact hle
      · exact hy z hmem
    · rw [if_neg (by simp [hle])]
      refine List.pairwise_cons.mpr ⟨?_, hp⟩
      intro z hz
      rcases List.mem_cons.mp hz with rfl | hmem
      · omega
      · have := hy z hmem; omega

theorem stableSort_pairwise_key {α : Type _} (key : α → Nat) (l : List α) :
    (sortByKey key l).Pairwise (fun a b => key a ≤ key b) := by
  unfold sortByKey stableSort
  suffices h : ∀ (xs acc : List α),
      acc.Pairwise (fun a b => key a ≤ key b) →
      (xs.foldl (fun acc x =>
          insertTail (fun a b => decide (key a ≤ key b)) x acc) acc).Pairwise
        (fun a b => key a ≤ key b) by
    exact h l [] (by simp)
  intro xs
  induction xs with
  | nil => intro acc h; simpa using h
  | cons x xs ih =>
    intro acc h
    rw [List.foldl_cons]
    exact ih _ (insertTail_pairwise key x acc h)

theorem insertTail_filter_key {α : Type _} (key : α → Nat) (x : α) (k : Nat) :
    ∀ (l : List α), l.Pairwise (fun a b => key a ≤ key b) →
      (insertTail (fun a b => decide (key a ≤ key b)) x l).filter
          (fun a => key a == k) =
        if key x = k
        then l.filter (fun a => key a == k) ++ [x]
        else l.filter (fun a => key a == k) := by
  intro l
  induction l with
  | nil =>
    intro _
    by_cases hk : key x = k
    · simp [insertTail, List.filter, hk]
    · have hbeq : (key x == k) = false := by simp [hk]
      simp [insertTail, List.filter, hk, hbeq]
  | cons y ys ih =>
    intro hp
    obtain ⟨hy, hys⟩ := List.pairwise_cons.mp hp
    unfold insertTail
    by_cases hle : key y ≤ key x
    · rw [if_pos (decide_eq_true hle)]
      by_cases hk : key x = k <;> by_cases hyk : key y = k <;>
        simp [List.filter_cons, ih hys, hk, hyk]
    · rw [if_neg (by simp [hle])]
      have hlt : key x < key y := by omega
      by_cases hk : key x = k
      · have hnil : (y :: ys).filter (fun a => key a == k) = [] := by
          rw [List.filter_eq_nil_iff]
          intro z hz
          rcases List.mem_cons.mp hz with rfl | hmem
          · simp only [beq_iff_eq]; omega
          · have := hy z hmem
            simp only [beq_iff_eq]; omega
        rw [if_pos hk]
        rw [List.filter_cons]
        simp [hk, hnil]
      · rw [if_neg hk]
        rw [List.filter_cons]
        simp [hk]

theorem stableSort_filter_key {α : Type _} (key : α → Nat) (k : Nat)
    (l : List α) :
    (sortByKey key l).filter (fun a => key a == k) =
      l.filter (fun a => key a == k) := by
  unfold sortByKey stableSort
  suffices h : ∀ (xs acc : List α),
      acc.Pairwise (fun a b => key a ≤ key b) →
      (xs.foldl (fun acc x =>
          insertTail (fun a b => decide (key a ≤ key b)) x acc) acc).filter
          (fun a => key a == k) =
        acc.filter (fun a => key a == k) ++ xs.filter (fun a => key a == k) by
    simpa using h l [] (by simp)
  intro xs
  induction xs with
  | nil => intro acc _; simp
  | cons x xs ih =>
    intro acc h
    rw [List.foldl_cons, ih _ (insertTail_pairwise key x acc h),
      insertTail_filter_key key x k acc h, List.filter_cons]
    by_cases hk : key x = k <;> simp [hk, List.append_assoc]

/-- Every produced chapter has a non-empty member list equal to the stable
key-sort of the generation's book persons. -/
theorem mem_buildChapters {gens : List (String × Int)}
    {bps : List BookPerson} {ch : BookChapter}
    (hch : ch ∈ buildChapters gens bps) :
    ch.members ≠ [] ∧
    ch.members =
      sortByKey bpKey (bps.filter (fun bp => bp.generation = ch.generation)) := by
  unfold buildChapters at hch
  obtain ⟨gNat, hg, heq⟩ := List.mem_filterMap.mp hch
  simp only at heq
  split at heq
  · cases heq
  · rename_i hne
    cases heq
    refine ⟨?_, rfl⟩
    intro hnil
    rw [show (sortByKey bpKey
        (bps.filter (fun bp => bp.generation = (gNat : Int)))) = [] from hnil]
      at hne
    simp at hne

/-- C6 (amended): a generation with zero patrilineal members produces no
chapter, and within every produced chapter the members are stably sorted
ascending by the key `childIndex ?? 99` — a missing birth-order index
behaves as the VALUE 99 (the code's sentinel), not as a maximal value, so
it ties with an actual index 99 and sorts BEFORE indices above 99; equal
keys keep their relative input order. -/
theorem chapter_assembly (people : List TreeNode)
    (families : List TreeFamily) (nm d : String)
    (cmp : String → String → Int) (ch : BookChapter)
    (hch : ch ∈ (generateBookData people families nm d cmp).chapters) :
    ch.members ≠ [] ∧
    ch.members.Pairwise (fun a b => bpKey a ≤ bpKey b) ∧
    ∀ k, ch.members.filter (fun m => bpKey m == k) =
      ((buildBookPersons people families
          (resolveGenerations people families)).filter
        (fun bp => bp.generation = ch.generation)).filter
        (fun m => bpKey m == k) := by
  have hch' : ch ∈ buildChapters (resolveGenerations people families)
      (buildBookPersons people families
        (resolveGenerations people families)) := by
    simpa [generateBookData] using hch
  obtain ⟨hne, hmem⟩ := mem_buildChapters hch'
  refine ⟨hne, ?_, ?_⟩
  · rw [hmem]
    exact stableSort_pairwise_key bpKey _
  · intro k
    rw [hmem, stableSort_filter_key]

/-- Witness for C6: the produced chapter of the example lineage has a
non-empty member list. -/
theorem chapter_assembly_witness :
    ((generateBookData [pExA, pExB, pExC] [fExF] "H" "d"
        (fun _ _ => 0)).chapters.headD default).members ≠ [] :=
  (chapter_assembly [pExA, pExB, pExC] [fExF] "H" "d" (fun _ _ => 0)
    ((generateBookData [pExA, pExB, pExC] [fExF] "H" "d"
        (fun _ _ => 0)).chapters.headD default) (by decide)).1

/-- Filler children records (out of lineage) used to push a birth-order
index past the code's 99 sentinel. -/
def c6filler (i : Nat) : TreeNode :=
  ⟨"c" ++ toString i, "c" ++ toString i, 0, none, none, false, false, [], [],
    none⟩

/-- `A6` is the 100th child of union `F6`; `B6` has no parent union and
hence no birth-order index. -/
def c6people : List TreeNode :=
  [⟨"A6", "A6", 1, none, none, true, true, [], ["F6"], none⟩,
   ⟨"B6", "B6", 1, none, none, true, true, [], [], none⟩] ++
  (List.range 99).map c6filler

def c6fam : TreeFamily :=
  ⟨"F6", none, none, ((List.range 99).map (fun i => "c" ++ toString i)) ++
    ["A6"]⟩

set_option maxRecDepth 10000 in
/-- C6 counterexample: the claim says an entry lacking a birth-order index
sorts after ALL indexed entries (missing index maximal), so `B6` (no index)
should come after `A6` (index 100); the code's sentinel keys `B6` as 99 and
sorts it FIRST. -/
theorem chapter_sort_sentinel_counterexample :
    ((generateBookData c6people [c6fam] "H" "d" (fun _ _ => 0)).chapters.headD
        default).members.map (fun m => (m.handle, m.childIndex)) =
      [("B6", none), ("A6", some 100)] := by decide

/-! ## Determinism (claim C7) -/

/-- C7 (amended): two invocations of the generator on identical people,
unions and family label agree on every field EXCEPT `exportDate`, which
equals the formatted invocation date (the wall clock made explicit); two
invocations on the same date produce fully identical `BookData`. -/
theorem determinism_modulo_exportDate (people : List TreeNode)
    (families : List TreeFamily) (nm : String)
    (cmp : String → String → Int) (d₁ d₂ : String) :
    (generateBookData people families nm d₁ cmp).familyName =
      (generateBookData people families nm d₂ cmp).familyName ∧
    (generateBookData people families nm d₁ cmp).totalGenerations =
      (generateBookData people families nm d₂ cmp).totalGenerations ∧
    (generateBookData people families nm d₁ cmp).totalMembers =
      (generateBookData people families nm d₂ cmp).totalMembers ∧
    (generateBookData people families nm d₁ cmp).totalPatrilineal =
      (generateBookData people families nm d₂ cmp).totalPatrilineal ∧
    (generateBookData people families nm d₁ cmp).chapters =
      (generateBookData people families nm d₂ cmp).chapters ∧
    (generateBookData people families nm d₁ cmp).nameIndex =
      (generateBookData people families nm d₂ cmp).nameIndex ∧
    (generateBookData people families nm d₁ cmp).exportDate = d₁ ∧
    (d₁ = d₂ → generateBookData people families nm d₁ cmp =
      generateBookData people families nm d₂ cmp) :=
  ⟨rfl, rfl, rfl, rfl, rfl, rfl, rfl, fun h => by rw [h]⟩

/-- Witness for C7: two same-date runs on the empty input are identical. -/
theorem determinism_modulo_exportDate_witness :
    generateBookData [] [] "H" "d" (fun _ _ => 0) =
      generateBookData [] [] "H" "d" (fun _ _ => 0) :=
  (determinism_modulo_exportDate [] [] "H" (fun _ _ => 0)
    "d" "d").2.2.2.2.2.2.2 rfl

/-- C7 counterexample: the synthesizer reads the wall clock for
`exportDate`, so two invocations on identical inputs (same people, unions,
family label) made on different dates produce structurally DIFFERENT
`BookData` — the claim's two-run identity fails. -/
theorem determinism_counterexample :
    generateBookData [] [] "H" "ngày 1" (fun _ _ => 0) ≠
      generateBookData [] [] "H" "ngày 2" (fun _ _ => 0) := by decide

end FamilyBook
